import Mathlib

/-!
Verification of the admission-control and cost-governance pipeline of the
aiscale backend: the cost kill switch (`app/core/cost_guard.py`), the
sliding-window rate limiter (`app/core/rate_limit.py`), the usage quota
enforcement (`app/core/ownership.py`), the FAQ answer cache
(`app/core/cost_guard.py`) and the demo admission pipeline
(`app/api/routes/demo.py`).

Monetary amounts and clock readings (Python floats from `time.time()`)
are embedded as rationals; calendar dates as integer day numbers.
Fallible database round trips are embedded as `Option`/explicit failure
flags: `none` models the query raising an exception.
-/

namespace AiScale

/- ── Cost guard (`app/core/cost_guard.py`) ──────────────────────────── -/

/-- The in-process cache for the daily cost check: the module-level
`_cost_cache = {"value": 0.0, "fetched_at": 0.0, "date": None}`. -/
structure CostCache where
  value : ℚ
  fetchedAt : ℚ
  date : Option ℤ
deriving DecidableEq

/-- The module-level constant `_CACHE_TTL_SECS = 60`. -/
def CACHE_TTL_SECS : ℚ := 60

/-- `get_today_total_cost()`.  Besides the returned float, the embedding
also returns the cache state after the call and whether the durable store
was queried (the `db.table("usage_daily")...execute()` round trip).
`dbRows = some rows` gives the `estimated_cost_usd` column of the rows for
today (`float(r.get("estimated_cost_usd") or 0)` already applied), and
`dbRows = none` models the query raising: the function logs and returns
the stale cached value, leaving the cache unchanged. -/
def get_today_total_cost (c : CostCache) (now : ℚ) (today : ℤ)
    (dbRows : Option (List ℚ)) : ℚ × CostCache × Bool :=
  if c.date = some today ∧ now - c.fetchedAt < CACHE_TTL_SECS then
    (c.value, c, false)
  else
    match dbRows with
    | some rows =>
        let total := rows.sum
        (total, ⟨total, now, some today⟩, true)
    | none => (c.value, c, true)

/-- `record_cost(cost)`: bump the cached value only; `fetched_at` and
`date` are untouched. -/
def record_cost (c : CostCache) (cost : ℚ) : CostCache :=
  { c with value := c.value + cost }

/-- Python `round` to the nearest integer with ties going to the even
integer (the rounding used by `round(x, 4)`). -/
def pyRoundInt (q : ℚ) : ℤ :=
  let f := Int.floor q
  let r := q - f
  if r < 1 / 2 then f
  else if 1 / 2 < r then f + 1
  else if Even f then f else f + 1

/-- `round(x, 4)` on the embedded rationals. -/
def round4 (q : ℚ) : ℚ := (pyRoundInt (q * 10000) : ℚ) / 10000

/-- Payload of the HTTP 503 raised by the kill switch (the
`daily_cost_usd` and `threshold_usd` fields of the `detail` dict). -/
structure ServiceSuspended where
  dailyCostUsd : ℚ
  thresholdUsd : ℚ
deriving DecidableEq

/-- `enforce_kill_switch()`: fetch the (possibly cached) daily total and
raise 503 when it is at or above `settings.MAX_DAILY_COST_USD`. -/
def enforce_kill_switch (c : CostCache) (now : ℚ) (today : ℤ)
    (dbRows : Option (List ℚ)) (maxDailyCostUsd : ℚ) :
    Except ServiceSuspended Unit × CostCache :=
  let out := get_today_total_cost c now today dbRows
  if maxDailyCostUsd ≤ out.1 then
    (.error ⟨round4 out.1, maxDailyCostUsd⟩, out.2.1)
  else
    (.ok (), out.2.1)

/- ── Usage quota enforcement (`app/core/ownership.py`) ──────────────── -/

/-- Payload of the HTTP 402 raised by `check_usage_limits` (the
`limit_type`, `current`, `limit` and `plan` fields of the detail). -/
structure QuotaExceeded where
  limitType : String
  current : ℕ
  limit : ℕ
  plan : String
deriving DecidableEq

/-- `check_usage_limits(owner_id, store)`.  `convLimit`, `tokLimit` and
`plan` are the values read from the store row (with their defaults);
`dbRows` holds the `(conversations, total_tokens)` pairs of the usage
rows for the current month, `none` modelling the query raising — the
function then logs and returns (fail open). -/
def check_usage_limits (convLimit tokLimit : ℕ) (plan : String)
    (dbRows : Option (List (ℕ × ℕ))) : Except QuotaExceeded Unit :=
  match dbRows with
  | none => .ok ()
  | some rows =>
      let totalConvs := (rows.map (fun r => r.1)).sum
      let totalTokens := (rows.map (fun r => r.2)).sum
      if convLimit ≤ totalConvs then
        .error ⟨"conversations", totalConvs, convLimit, plan⟩
      else if tokLimit ≤ totalTokens then
        .error ⟨"tokens", totalTokens, tokLimit, plan⟩
      else
        .ok ()

/- ── Rate limiter (`app/core/rate_limit.py`) ────────────────────────── -/

/-- Outcome of one `check` call: normal return, or the HTTP 429 with its
`retry_after_seconds` value. -/
inductive CheckResult where
  | admitted
  | rateLimited (retryAfterSeconds : ℤ)
deriving DecidableEq

/-- Whether a check result is an admission. -/
def CheckResult.isAdmitted : CheckResult → Bool
  | .admitted => true
  | .rateLimited _ => false

/-- Python `int()` truncation toward zero on a rational. -/
def pyInt (q : ℚ) : ℤ := if 0 ≤ q then Int.floor q else Int.ceil q

/-- One `InMemoryRateLimiter.check(key, limit, window_secs)` call,
restricted to the window list of the key being checked (the other keys of
the `defaultdict` are untouched and independent).  `windowSecs` is the
int argument, `now` the `time.time()` reading.  When `limit = 0` and the
pruned window is empty, CPython would raise `IndexError` on
`self._windows[key][0]`; the embedding instead computes the retry value
with `headD 0` — both behaviours reject the call. -/
def imStep (limit : ℕ) (windowSecs : ℤ) (st : List ℚ) (now : ℚ) :
    CheckResult × List ℚ :=
  let kept := st.filter (fun t => decide (now - (windowSecs : ℚ) < t))
  if limit ≤ kept.length then
    (.rateLimited (pyInt ((windowSecs : ℚ) - (now - kept.headD 0)) + 1), kept)
  else
    (.admitted, kept ++ [now])

/-- The whole `InMemoryRateLimiter` (its `_windows` dict) on one `check`
call: only the checked key changes. -/
def imCheck (windows : String → List ℚ) (key : String) (limit : ℕ)
    (windowSecs : ℤ) (now : ℚ) : CheckResult × (String → List ℚ) :=
  let s := imStep limit windowSecs (windows key) now
  (s.1, fun k => if k = key then s.2 else windows k)

/-- Failure model for the store round trips inside one
`RedisRateLimiter.check` call: the pipelined
prune/count/add/expire can raise (`pipelineFails`, store unreachable at
call time), or the compensating `zrem` on the rejection path can raise
(`zremFails`).  Either exception is caught by the
`except Exception` clause, which logs one warning and returns normally. -/
inductive RedisOutcome where
  | ok
  | pipelineFails
  | zremFails
deriving DecidableEq

/-- One `RedisRateLimiter.check(key, limit, window_secs)` call on the
sorted set stored at `rl:{key}`, modelled as its list of member scores.
The member is the string `str(now)`, which collides exactly when the
score collides, so `zadd` keeps the list duplicate-free and `zrem`
removes the member whose score is `now`.  `pipe.expire(key, window+1)`
only ever discards timestamps already older than every future window
cutoff, so it is subsumed by the modelled `zremrangebyscore` prune.
Returns the result, the new sorted set, and the number of warnings
logged during the call. -/
def redisStep (limit : ℕ) (windowSecs : ℤ) (st : List ℚ) (now : ℚ) :
    RedisOutcome → CheckResult × List ℚ × ℕ
  | .pipelineFails => (.admitted, st, 1)
  | outc =>
      let kept := st.filter (fun t => decide (now - (windowSecs : ℚ) < t))
      let added := if now ∈ kept then kept else kept ++ [now]
      if limit ≤ kept.length then
        if outc = .zremFails then
          (.admitted, added, 1)
        else
          (.rateLimited windowSecs, added.filter (fun t => decide (t ≠ now)), 0)
      else
        (.admitted, added, 0)

/-- A `RedisRateLimiter.check` call against a fully available backend:
result and new sorted set. -/
def redisStepOk (limit : ℕ) (windowSecs : ℤ) (st : List ℚ) (now : ℚ) :
    CheckResult × List ℚ :=
  ((redisStep limit windowSecs st now .ok).1,
   (redisStep limit windowSecs st now .ok).2.1)

/-- Trace of a sequence of in-memory `check` calls for one key: for each
clock reading in `calls`, the result of that call, threading the window
list through. -/
def imTrace (limit : ℕ) (windowSecs : ℤ) :
    List ℚ → List ℚ → List (ℚ × CheckResult)
  | _, [] => []
  | st, n :: ns =>
      (n, (imStep limit windowSecs st n).1) ::
        imTrace limit windowSecs (imStep limit windowSecs st n).2 ns

/-- Trace of a sequence of `check` calls on the Redis backend with the
store fully available. -/
def redisTrace (limit : ℕ) (windowSecs : ℤ) :
    List ℚ → List ℚ → List (ℚ × CheckResult)
  | _, [] => []
  | st, n :: ns =>
      (n, (redisStepOk limit windowSecs st n).1) ::
        redisTrace limit windowSecs (redisStepOk limit windowSecs st n).2 ns

/-- Timestamps of the admitted calls of a trace, in call order. -/
def admittedTimes (tr : List (ℚ × CheckResult)) : List ℚ :=
  (tr.filter (fun p => p.2.isAdmitted)).map (fun p => p.1)

/-- Decidable membership of `s` in the trailing window `(t - W, t]`. -/
def inWindow (windowSecs : ℤ) (t s : ℚ) : Bool :=
  decide (t - (windowSecs : ℚ) < s) && decide (s ≤ t)

/-- The verdict the sliding-window semantics assigns to a call at time
`t` whose window of previously admitted timestamps is `win`: reject with
the retry value computed from the oldest entry when the window is full,
admit otherwise. -/
def stepVerdict (limit : ℕ) (windowSecs : ℤ) (win : List ℚ) (t : ℚ) :
    CheckResult :=
  if limit ≤ win.length then
    .rateLimited (pyInt ((windowSecs : ℚ) - (t - win.headD 0)) + 1)
  else
    .admitted

/-- The per-call sliding-window contract, relative to a list `adm0` of
timestamps admitted before the trace started: every call of the trace is
admitted iff fewer than `limit` previously admitted timestamps lie in
its trailing window, and a rejection carries the retry value computed
from the oldest window entry. -/
def SlidingSpecFrom (limit : ℕ) (windowSecs : ℤ) (adm0 : List ℚ)
    (tr : List (ℚ × CheckResult)) : Prop :=
  ∀ pre t res post, tr = pre ++ (t, res) :: post →
    res = stepVerdict limit windowSecs
      ((adm0 ++ admittedTimes pre).filter (inWindow windowSecs t)) t

/-- The per-call sliding-window contract for a trace started from an
empty window. -/
def SlidingSpec (limit : ℕ) (windowSecs : ℤ)
    (tr : List (ℚ × CheckResult)) : Prop :=
  SlidingSpecFrom limit windowSecs [] tr

/-- At most `limit` admitted timestamps in any trailing window. -/
def WindowBound (limit : ℕ) (windowSecs : ℤ) (adm : List ℚ) : Prop :=
  ∀ T : ℚ, ((adm.filter (inWindow windowSecs T)).length) ≤ limit

/-- Projection of a trace to its admission behaviour (call time and
whether the call was admitted), forgetting retry values. -/
def admTrace (tr : List (ℚ × CheckResult)) : List (ℚ × Bool) :=
  tr.map (fun p => (p.1, p.2.isAdmitted))

/- ── FAQ answer cache (`app/core/cost_guard.py`) ────────────────────── -/

/-- The whitespace characters Python `str.split()` and `str.strip()`
split on (ASCII subset). -/
def isPyWs (c : Char) : Bool :=
  c == ' ' || c == '\t' || c == '\n' || c == '\r' || c == '\x0b' || c == '\x0c'

/-- ASCII lower-casing of one character, as Python `str.lower` acts on
ASCII input. -/
def lowerChar (c : Char) : Char :=
  if c = 'A' then 'a' else if c = 'B' then 'b' else if c = 'C' then 'c'
  else if c = 'D' then 'd' else if c = 'E' then 'e' else if c = 'F' then 'f'
  else if c = 'G' then 'g' else if c = 'H' then 'h' else if c = 'I' then 'i'
  else if c = 'J' then 'j' else if c = 'K' then 'k' else if c = 'L' then 'l'
  else if c = 'M' then 'm' else if c = 'N' then 'n' else if c = 'O' then 'o'
  else if c = 'P' then 'p' else if c = 'Q' then 'q' else if c = 'R' then 'r'
  else if c = 'S' then 's' else if c = 'T' then 't' else if c = 'U' then 'u'
  else if c = 'V' then 'v' else if c = 'W' then 'w' else if c = 'X' then 'x'
  else if c = 'Y' then 'y' else if c = 'Z' then 'z' else c

/-- `text.lower()` on the character list of a string. -/
def pyLower (l : List Char) : List Char := l.map lowerChar

/-- Worker for `str.split()`: walk the characters, accumulating the
current word reversed; whitespace closes the current word. -/
def wordsAux : List Char → List Char → List (List Char)
  | [], acc => if acc.isEmpty then [] else [acc.reverse]
  | c :: rest, acc =>
      if isPyWs c then
        if acc.isEmpty then wordsAux rest [] else acc.reverse :: wordsAux rest []
      else
        wordsAux rest (c :: acc)

/-- `text.split()`: maximal runs of non-whitespace characters. -/
def pyWords (l : List Char) : List (List Char) := wordsAux l []

/-- `text.strip()`: drop leading and trailing whitespace. -/
def pyStrip (l : List Char) : List Char :=
  ((l.dropWhile isPyWs).reverse.dropWhile isPyWs).reverse

/-- The normalised question text built inside `hash_question`:
`" ".join(text.lower().strip().split())`. -/
def normalizeQuestion (s : String) : String :=
  String.mk (List.intercalate [' '] (pyWords (pyStrip (pyLower s.data))))

/-- Hex digit for a nibble. -/
def hexDigitChar (n : ℕ) : Char :=
  if n < 10 then Char.ofNat (48 + n) else Char.ofNat (87 + n)

/-- Fixed-width hex rendering of a natural number. -/
def toHexFixed : ℕ → ℕ → List Char
  | 0, _ => []
  | w + 1, v => toHexFixed w (v / 16) ++ [hexDigitChar (v % 16)]

/-- Modelled from the spec: `hashlib.sha256(normalised.encode()).hexdigest()`
is library code outside this repository; the spec asks only for a
deterministic digest of the normalised text "to a fixed-length key", so
the compression is modelled by a deterministic 64-hex-digit digest. -/
def sha256hexModel (l : List Char) : List Char :=
  toHexFixed 64 (l.foldl (fun a c => (a * 131 + c.toNat + 1) % 2 ^ 256) 7)

/-- `hash_question(text)`: normalise, then digest. -/
def hash_question (s : String) : String :=
  String.mk (sha256hexModel (normalizeQuestion s).data)

/-- One row of the `faq_cache` table, with the columns the code touches.
`expiresAt` is the row expiry instant in seconds. -/
structure FaqRow where
  ownerId : String
  questionHash : String
  questionText : String
  answerText : String
  modelUsed : String
  hitCount : ℕ
  expiresAt : ℚ
deriving DecidableEq

/-- `store_cached_answer(owner_id, question, answer, model)`: upsert by
the natural key `(owner_id, question_hash)` with
`expires_at = now() + interval FAQ_CACHE_TTL_HOURS hours`.  A conflicting
row is overwritten in place; otherwise the new row is appended. -/
def store_cached_answer (dbase : List FaqRow) (owner question answer model : String)
    (now ttlHours : ℚ) : List FaqRow :=
  let h := hash_question question
  let newRow : FaqRow :=
    ⟨owner, h, question.take 500, answer, model, 1, now + ttlHours * 3600⟩
  if dbase.any (fun r => decide (r.ownerId = owner ∧ r.questionHash = h)) then
    dbase.map (fun r =>
      if r.ownerId = owner ∧ r.questionHash = h then newRow else r)
  else
    dbase ++ [newRow]

/-- `get_cached_answer(owner_id, question)`: select the rows matching
`(owner_id, question_hash)` whose `expires_at` is strictly in the future,
take the first; if one exists, bump its `hit_count` and return its
answer.  `hitUpdateFails = true` models the hit-count `update(...).execute()`
raising: CPython then jumps to the `except` clause before reaching the
`return row["answer_text"]` line, logs, and falls through to `return None`,
leaving the table unchanged. -/
def get_cached_answer (dbase : List FaqRow) (owner question : String) (now : ℚ)
    (hitUpdateFails : Bool) : Option String × List FaqRow :=
  let h := hash_question question
  match (dbase.filter (fun r =>
      decide (r.ownerId = owner ∧ r.questionHash = h ∧ now < r.expiresAt))).head? with
  | some row =>
      if hitUpdateFails then
        (none, dbase)
      else
        (some row.answerText,
         dbase.map (fun r =>
           if r.ownerId = owner ∧ r.questionHash = h then
             { r with hitCount := r.hitCount + 1 }
           else r))
  | none => (none, dbase)

/-- Two question texts differ only in letter case and in surrounding or
repeated whitespace: they split into the same sequence of words up to
ASCII case. -/
def CaseWsEquiv (s1 s2 : String) : Prop :=
  (pyWords s1.data).map (List.map lowerChar)
    = (pyWords s2.data).map (List.map lowerChar)

instance (s1 s2 : String) : Decidable (CaseWsEquiv s1 s2) :=
  inferInstanceAs (Decidable
    ((pyWords s1.data).map (List.map lowerChar)
      = (pyWords s2.data).map (List.map lowerChar)))

/- ── Demo admission pipeline (`app/api/routes/demo.py`) ─────────────── -/

/-- One row of the `demo_sessions` table, with the columns the code
touches. -/
structure SessionRow where
  sessionToken : String
  ipAddress : String
  createdAt : ℚ
  messageCount : ℕ
deriving DecidableEq

/-- Rejections produced by `_get_or_create_session`: the per-IP daily cap
(429 `daily_limit`) and the per-session message cap (429 `session_limit`). -/
inductive DemoReject where
  | dailyLimit
  | sessionLimit
deriving DecidableEq

/-- `_get_or_create_session(ip, session_token)`: enforce the per-IP daily
cap (sum of `message_count` over the sessions created since midnight from
this IP), then validate the presented session token against the
per-session cap, creating a fresh session row when none matches. -/
def get_or_create_session (sessions : List SessionRow) (ip : String)
    (sessionToken : Option String) (perIpLimit perSessionLimit : ℕ)
    (todayStart now : ℚ) (newToken : String) :
    Except DemoReject String × List SessionRow :=
  let ipTotal := ((sessions.filter (fun r =>
      decide (r.ipAddress = ip ∧ todayStart ≤ r.createdAt))).map
      (fun r => r.messageCount)).sum
  if perIpLimit ≤ ipTotal then
    (.error .dailyLimit, sessions)
  else
    match sessionToken with
    | some tok =>
        match (sessions.filter (fun r => decide (r.sessionToken = tok))).head? with
        | some row =>
            if perSessionLimit ≤ row.messageCount then
              (.error .sessionLimit, sessions)
            else
              (.ok tok, sessions)
        | none => (.ok newToken, sessions ++ [⟨newToken, ip, now, 0⟩])
    | none => (.ok newToken, sessions ++ [⟨newToken, ip, now, 0⟩])

/-- Outcome of the admission prefix of `demo_chat`. -/
inductive DemoGate where
  | suspended (p : ServiceSuspended)
  | rateLimited (retryAfterSeconds : ℤ)
  | dailyLimit
  | sessionLimit
  | proceed (sessionToken : String)
deriving DecidableEq

/-- The mutable state the admission prefix of `demo_chat` touches: the
cost-guard cache, the in-memory rate-limiter windows, and the
`demo_sessions` table. -/
structure DemoState where
  cost : CostCache
  limiter : String → List ℚ
  sessions : List SessionRow

/-- The admission prefix of `demo_chat` (its steps 1–3, which decide the
claims about ordering): `enforce_kill_switch()`, then
`rate_limiter.check(f"ip:{client_ip}", IP_RATE_LIMIT_PER_MINUTE, 60)` on
the in-memory backend, then `_get_or_create_session(client_ip,
body.session_token)`.  The later steps (cache lookup, OpenAI call,
persistence) do not touch the modelled state before one of these three
gates has resolved. -/
def demo_chat_gate (st : DemoState) (clientIp : String)
    (sessionToken : Option String) (now : ℚ) (today : ℤ) (todayStart : ℚ)
    (costRows : Option (List ℚ)) (maxDailyCostUsd : ℚ)
    (ipRateLimitPerMinute : ℕ) (demoPerIp demoPerSession : ℕ)
    (newToken : String) : DemoGate × DemoState :=
  let ks := enforce_kill_switch st.cost now today costRows maxDailyCostUsd
  match ks.1 with
  | .error p => (.suspended p, { st with cost := ks.2 })
  | .ok _ =>
      let rl := imCheck st.limiter ("ip:" ++ clientIp) ipRateLimitPerMinute 60 now
      match rl.1 with
      | .rateLimited r =>
          (.rateLimited r, { cost := ks.2, limiter := rl.2, sessions := st.sessions })
      | .admitted =>
          let sess := get_or_create_session st.sessions clientIp sessionToken
            demoPerIp demoPerSession todayStart now newToken
          match sess.1 with
          | .error .dailyLimit =>
              (.dailyLimit, { cost := ks.2, limiter := rl.2, sessions := sess.2 })
          | .error .sessionLimit =>
              (.sessionLimit, { cost := ks.2, limiter := rl.2, sessions := sess.2 })
          | .ok tok =>
              (.proceed tok, { cost := ks.2, limiter := rl.2, sessions := sess.2 })

/- ── Helper lemmas: lists and windows ───────────────────────────────── -/

theorem length_filter_le_of_imp {α : Type} (l : List α) (p q : α → Bool)
    (h : ∀ a ∈ l, p a = true → q a = true) :
    (l.filter p).length ≤ (l.filter q).length := by
  induction l with
  | nil => simp
  | cons a l ih =>
      have ihl := ih (fun b hb => h b (List.mem_cons_of_mem _ hb))
      have ha := h a (List.mem_cons_self _ _)
      by_cases hp : p a = true
      · rw [List.filter_cons_of_pos hp, List.filter_cons_of_pos (ha hp)]
        simpa using ihl
      · rw [List.filter_cons_of_neg (by simpa using hp)]
        by_cases hq : q a = true
        · rw [List.filter_cons_of_pos hq]
          exact le_trans ihl (by simp)
        · rw [List.filter_cons_of_neg (by simpa using hq)]
          exact ihl

theorem headD_le_of_sorted (l : List ℚ) (d : ℚ)
    (hs : l.Pairwise (· ≤ ·)) : ∀ s ∈ l, l.headD d ≤ s := by
  cases l with
  | nil => intro s hsm; simp at hsm
  | cons x xs =>
      intro s hsm
      rcases List.mem_cons.mp hsm with h | h
      · subst h; simp
      · exact (List.pairwise_cons.mp hs).1 s h

theorem admittedTimes_append (l1 l2 : List (ℚ × CheckResult)) :
    admittedTimes (l1 ++ l2) = admittedTimes l1 ++ admittedTimes l2 := by
  simp [admittedTimes]

theorem admittedTimes_cons (p : ℚ × CheckResult) (tr : List (ℚ × CheckResult)) :
    admittedTimes (p :: tr)
      = if p.2.isAdmitted then p.1 :: admittedTimes tr else admittedTimes tr := by
  by_cases h : p.2.isAdmitted
  · simp [admittedTimes, List.filter_cons, h]
  · simp [admittedTimes, List.filter_cons, h]

theorem admittedTimes_sublist (tr : List (ℚ × CheckResult)) :
    List.Sublist (admittedTimes tr) (tr.map Prod.fst) :=
  List.Sublist.map _ (List.filter_sublist tr)

theorem imTrace_map_fst (limit : ℕ) (W : ℤ) (st calls : List ℚ) :
    (imTrace limit W st calls).map Prod.fst = calls := by
  induction calls generalizing st with
  | nil => simp [imTrace]
  | cons n ns ih => simp [imTrace, ih]

theorem redisTrace_map_fst (limit : ℕ) (W : ℤ) (st calls : List ℚ) :
    (redisTrace limit W st calls).map Prod.fst = calls := by
  induction calls generalizing st with
  | nil => simp [redisTrace]
  | cons n ns ih => simp [redisTrace, ih]

/- ── Helper lemmas: the in-memory trace meets the sliding contract ──── -/

theorem imTrace_specFrom (limit : ℕ) (W : ℤ) (hW : 0 < W) (calls : List ℚ) :
    ∀ (adm0 st : List ℚ) (c : ℚ),
      st = adm0.filter (fun s => decide (c < s)) →
      (∀ n ∈ calls, c + (W : ℚ) ≤ n) →
      (∀ a ∈ adm0, ∀ n ∈ calls, a ≤ n) →
      calls.Pairwise (· ≤ ·) →
      SlidingSpecFrom limit W adm0 (imTrace limit W st calls) := by
  induction calls with
  | nil =>
      intro adm0 st c _ _ _ _ pre t res post h
      simp [imTrace] at h
  | cons n ns ih =>
      intro adm0 st c hst hcut hpast hmono
      have hcn : c + (W : ℚ) ≤ n := hcut n (List.mem_cons_self _ _)
      have hWq : (0 : ℚ) < (W : ℚ) := by exact_mod_cast hW
      -- the pruned list of this call is exactly the prior admitted
      -- timestamps above the new cutoff
      have hkept2 : st.filter (fun s => decide (n - (W : ℚ) < s))
          = adm0.filter (fun s => decide (n - (W : ℚ) < s)) := by
        subst hst
        rw [List.filter_filter]
        apply List.filter_congr
        intro a _
        by_cases hba : n - (W : ℚ) < a
        · have hca : c < a := lt_of_le_of_lt (by linarith) hba
          simp [hba, hca]
        · simp [hba]
      -- and those are exactly the prior admitted timestamps in the window
      have hwin : adm0.filter (fun s => decide (n - (W : ℚ) < s))
          = adm0.filter (inWindow W n) := by
        apply List.filter_congr
        intro a ha
        have han : a ≤ n := hpast a ha n (List.mem_cons_self _ _)
        simp [inWindow, han]
      have hmonoTail := (List.pairwise_cons.mp hmono).2
      have hnle : ∀ m ∈ ns, n ≤ m := (List.pairwise_cons.mp hmono).1
      by_cases hlim :
          limit ≤ (st.filter (fun s => decide (n - (W : ℚ) < s))).length
      · -- rejection: nothing recorded
        have hstep : imStep limit W st n
            = (.rateLimited (pyInt ((W : ℚ)
                - (n - (st.filter (fun s => decide (n - (W : ℚ) < s))).headD 0)) + 1),
               st.filter (fun s => decide (n - (W : ℚ) < s))) := by
          simp only [imStep]
          rw [if_pos hlim]
        intro pre t res post h
        rw [imTrace.eq_def] at h
        simp only [hstep] at h
        cases pre with
        | nil =>
            simp only [List.nil_append, List.cons.injEq, Prod.mk.injEq] at h
            obtain ⟨⟨ht, hres⟩, -⟩ := h
            subst ht
            rw [← hres]
            simp only [admittedTimes, List.filter_nil, List.map_nil,
              List.append_nil, stepVerdict]
            rw [← hwin, ← hkept2, if_pos hlim]
        | cons p pre2 =>
            simp only [List.cons_append, List.cons.injEq] at h
            obtain ⟨hp, htail⟩ := h
            have hrec := ih adm0 (st.filter (fun s => decide (n - (W : ℚ) < s)))
              (n - (W : ℚ))
              hkept2
              (fun m hm => by have := hnle m hm; linarith)
              (fun a ha m hm => hpast a ha m (List.mem_cons_of_mem _ hm))
              hmonoTail
            have hv := hrec pre2 t res post htail
            rw [← hp]
            simpa [admittedTimes_cons, CheckResult.isAdmitted] using hv
      · -- admission: the current timestamp is appended
        have hstep : imStep limit W st n
            = (.admitted, st.filter (fun s => decide (n - (W : ℚ) < s)) ++ [n]) := by
          simp only [imStep]
          rw [if_neg hlim]
        intro pre t res post h
        rw [imTrace.eq_def] at h
        simp only [hstep] at h
        cases pre with
        | nil =>
            simp only [List.nil_append, List.cons.injEq, Prod.mk.injEq] at h
            obtain ⟨⟨ht, hres⟩, -⟩ := h
            subst ht
            rw [← hres]
            simp only [admittedTimes, List.filter_nil, List.map_nil,
              List.append_nil, stepVerdict]
            rw [← hwin, ← hkept2, if_neg hlim]
        | cons p pre2 =>
            simp only [List.cons_append, List.cons.injEq] at h
            obtain ⟨hp, htail⟩ := h
            have hstA : st.filter (fun s => decide (n - (W : ℚ) < s)) ++ [n]
                = (adm0 ++ [n]).filter (fun s => decide (n - (W : ℚ) < s)) := by
              rw [List.filter_append, hkept2]
              congr 1
              simp [show n - (W : ℚ) < n by linarith]
            have hrec := ih (adm0 ++ [n])
              (st.filter (fun s => decide (n - (W : ℚ) < s)) ++ [n]) (n - (W : ℚ))
              hstA
              (fun m hm => by have := hnle m hm; linarith)
              (fun a ha m hm => by
                rcases List.mem_append.mp ha with ha0 | han
                · exact hpast a ha0 m (List.mem_cons_of_mem _ hm)
                · simp only [List.mem_singleton] at han
                  subst han
                  exact hnle m hm)
              hmonoTail
            have hv := hrec pre2 t res post htail
            rw [← hp]
            simpa [admittedTimes_cons, CheckResult.isAdmitted,
              List.append_assoc] using hv

/- ── Helper lemmas: window bound from the sliding contract ──────────── -/

theorem windowBound_of_spec (limit : ℕ) (W : ℤ) (tr : List (ℚ × CheckResult))
    (hsorted : (tr.map Prod.fst).Pairwise (· ≤ ·))
    (hspec : SlidingSpec limit W tr) :
    WindowBound limit W (admittedTimes tr) := by
  induction tr using List.reverseRecOn with
  | nil => intro T; simp [admittedTimes]
  | append_singleton tr p ih =>
      have hsorted2 : (tr.map Prod.fst).Pairwise (· ≤ ·) := by
        rw [List.map_append] at hsorted
        exact (List.pairwise_append.mp hsorted).1
      have hle : ∀ a ∈ tr.map Prod.fst, a ≤ p.1 := by
        rw [List.map_append] at hsorted
        intro a ha
        exact (List.pairwise_append.mp hsorted).2.2 a ha p.1 (by simp)
      have hspec2 : SlidingSpec limit W tr := by
        intro pre t res post hdec
        exact hspec pre t res (post ++ [p]) (by rw [hdec]; simp)
      have ihb := ih hsorted2 hspec2
      intro T
      rw [admittedTimes_append]
      obtain ⟨t, res⟩ := p
      by_cases hadm : res.isAdmitted
      · have hres : res = .admitted := by
          cases res
          · rfl
          · simp [CheckResult.isAdmitted] at hadm
        subst hres
        have hat : admittedTimes [((t : ℚ), CheckResult.admitted)] = [t] := by
          simp [admittedTimes, CheckResult.isAdmitted]
        rw [hat, List.filter_append]
        by_cases hT : inWindow W T t = true
        · have hlast := hspec tr t .admitted [] rfl
          rw [stepVerdict.eq_def] at hlast
          simp only [List.nil_append] at hlast
          have hcount : ((admittedTimes tr).filter (inWindow W t)).length < limit := by
            by_contra hge
            push_neg at hge
            rw [if_pos hge] at hlast
            exact absurd hlast (by simp)
          have hmonoW : ((admittedTimes tr).filter (inWindow W T)).length
              ≤ ((admittedTimes tr).filter (inWindow W t)).length := by
            apply length_filter_le_of_imp
            intro a ha haT
            have hat2 : a ≤ t := hle a ((admittedTimes_sublist tr).subset ha)
            simp only [inWindow, Bool.and_eq_true, decide_eq_true_eq] at haT hT ⊢
            exact ⟨by linarith [hT.2, haT.1], hat2⟩
          have hsing : ([t].filter (inWindow W T)).length = 1 := by
            simp [List.filter, hT]
          rw [List.length_append, hsing]
          omega
        · have hsing : ([t].filter (inWindow W T)).length = 0 := by
            simp [List.filter, hT]
          rw [List.length_append, hsing]
          simpa using ihb T
      · have hat : admittedTimes [((t : ℚ), res)] = [] := by
          simp [admittedTimes, hadm]
        rw [hat, List.append_nil]
        exact ihb T

/- ── Helper lemmas: the Redis backend simulates the in-memory one ───── -/

theorem imStep_mem (limit : ℕ) (W : ℤ) (st : List ℚ) (now x : ℚ)
    (hx : x ∈ (imStep limit W st now).2) : x ∈ st ∨ x = now := by
  simp only [imStep] at hx
  split at hx
  · exact Or.inl (List.mem_of_mem_filter hx)
  · rcases List.mem_append.mp hx with h | h
    · exact Or.inl (List.mem_of_mem_filter h)
    · simp only [List.mem_singleton] at h
      exact Or.inr h

theorem redisStep_ok_eq (limit : ℕ) (W : ℤ) (st : List ℚ) (now : ℚ)
    (hnot : now ∉ st) :
    redisStep limit W st now .ok
      = (if limit ≤ (st.filter (fun t => decide (now - (W : ℚ) < t))).length
         then (.rateLimited W, st.filter (fun t => decide (now - (W : ℚ) < t)), 0)
         else (.admitted, st.filter (fun t => decide (now - (W : ℚ) < t)) ++ [now], 0)) := by
  have hnkept : now ∉ st.filter (fun t => decide (now - (W : ℚ) < t)) :=
    fun hmem => hnot (List.mem_of_mem_filter hmem)
  simp only [redisStep]
  rw [if_neg hnkept,
    if_neg (show ¬ (RedisOutcome.ok = RedisOutcome.zremFails) by decide)]
  by_cases hlim :
      limit ≤ (st.filter (fun t => decide (now - (W : ℚ) < t))).length
  · rw [if_pos hlim, if_pos hlim, List.filter_append]
    have h1 : (st.filter (fun t => decide (now - (W : ℚ) < t))).filter
        (fun t => decide (t ≠ now))
        = st.filter (fun t => decide (now - (W : ℚ) < t)) := by
      apply List.filter_eq_self.mpr
      intro a ha
      exact decide_eq_true (fun he => hnkept (he ▸ ha))
    have h2 : ([now].filter (fun t => decide (t ≠ now))) = [] := by simp
    rw [h1, h2, List.append_nil]
  · rw [if_neg hlim, if_neg hlim]

theorem redisTrace_admEq (limit : ℕ) (W : ℤ) (calls : List ℚ) :
    ∀ st : List ℚ,
      (∀ x ∈ st, ∀ n ∈ calls, x ≠ n) →
      calls.Pairwise (fun a b => a ≠ b) →
      admTrace (redisTrace limit W st calls) = admTrace (imTrace limit W st calls) := by
  induction calls with
  | nil => intro st _ _; rfl
  | cons n ns ih =>
      intro st hdist hpw
      have hnot : n ∉ st := fun hin => hdist n hin n (List.mem_cons_self _ _) rfl
      have hsim := redisStep_ok_eq limit W st n hnot
      have hstate : (redisStepOk limit W st n).2 = (imStep limit W st n).2 := by
        simp only [redisStepOk, hsim, imStep]
        split
        · rfl
        · rfl
      have hadm : (redisStepOk limit W st n).1.isAdmitted
          = (imStep limit W st n).1.isAdmitted := by
        simp only [redisStepOk, hsim, imStep]
        split
        · rfl
        · rfl
      rw [redisTrace.eq_def, imTrace.eq_def]
      simp only [admTrace, List.map_cons]
      have htail :
          (redisTrace limit W (redisStepOk limit W st n).2 ns).map
              (fun p => (p.1, p.2.isAdmitted))
            = (imTrace limit W (imStep limit W st n).2 ns).map
              (fun p => (p.1, p.2.isAdmitted)) := by
        rw [hstate]
        exact ih (imStep limit W st n).2
          (fun x hx m hm => by
            rcases imStep_mem limit W st n x hx with hxs | hxn
            · exact hdist x hxs m (List.mem_cons_of_mem _ hm)
            · subst hxn
              exact (List.pairwise_cons.mp hpw).1 m hm)
          (List.pairwise_cons.mp hpw).2
      rw [hadm, htail]

theorem admittedTimes_eq_of_admTrace :
    ∀ (tr1 tr2 : List (ℚ × CheckResult)), admTrace tr1 = admTrace tr2 →
      admittedTimes tr1 = admittedTimes tr2 := by
  intro tr1
  induction tr1 with
  | nil =>
      intro tr2 h
      cases tr2 with
      | nil => rfl
      | cons q tr2t => simp [admTrace] at h
  | cons p tr ih =>
      intro tr2 h
      cases tr2 with
      | nil => simp [admTrace] at h
      | cons q tr2t =>
          simp only [admTrace, List.map_cons, List.cons.injEq, Prod.mk.injEq] at h
          obtain ⟨⟨h1, h2⟩, h3⟩ := h
          rw [admittedTimes_cons, admittedTimes_cons, h1, h2]
          rw [ih tr2t h3]

theorem imTrace_spec_nil (limit : ℕ) (W : ℤ) (calls : List ℚ)
    (hW : 0 < W) (hmono : calls.Pairwise (· ≤ ·)) :
    SlidingSpec limit W (imTrace limit W [] calls) := by
  have h := imTrace_specFrom limit W hW calls [] [] (calls.headD 0 - (W : ℚ))
    (by simp)
    (fun n hn => by
      have hd : calls.headD 0 ≤ n := headD_le_of_sorted calls 0 hmono n hn
      linarith)
    (fun a ha => absurd ha (List.not_mem_nil a))
    hmono
  exact h

/- ── Theorems: sliding-window rate limiting (C1) ────────────────────── -/

/-- Claim C1 counterexample: the claim as stated fails on the code.
First, with a clock that steps backwards (`time.time()` is not monotonic),
the in-memory backend admits calls at 100, 109, 120 and 105 for limit 2
and window 10 — three admitted timestamps (100, 109, 105) lie in the
trailing window `(99, 109]`.  Second, on the Redis backend, available
throughout, three calls sharing the timestamp 10 with limit 1 lead to two
admissions in one window: the second (rejected) call removes the member
`str(10)` recorded by the first (admitted) call, so the third call finds
an empty window and is admitted as well. -/
theorem sliding_window_claim_counterexample :
    2 < ((admittedTimes (imTrace 2 10 [] [100, 109, 120, 105])).filter
          (inWindow 10 109)).length
    ∧ 1 < ((admittedTimes (redisTrace 1 60 [] [10, 10, 10])).filter
          (inWindow 60 10)).length := by
  constructor <;>
    norm_num [imTrace, redisTrace, redisStepOk, redisStep, imStep,
      admittedTimes, inWindow, List.filter, CheckResult.isAdmitted]

/-- Claim C1 (corrected, amended): for a monotone clock (nondecreasing
`time.time()` readings) the in-memory backend satisfies the claim in
full — every call is admitted iff fewer than `limit` previously admitted
timestamps for the key lie in the trailing window (`SlidingSpec`), at
most `limit` admitted calls fall in any trailing window (`WindowBound`),
and a rejected call records nothing.  The Redis backend agrees with the
in-memory backend call by call — and hence obeys the same bound —
provided the call timestamps are additionally pairwise distinct;
duplicated timestamps collide on the sorted-set member and break the
bound (see the counterexample). -/
theorem rate_limit_sliding_window_amended (limit : ℕ) (W : ℤ) (calls : List ℚ)
    (hW : 0 < W) (hmono : calls.Pairwise (· ≤ ·)) :
    SlidingSpec limit W (imTrace limit W [] calls)
    ∧ WindowBound limit W (admittedTimes (imTrace limit W [] calls))
    ∧ (∀ st n, (imStep limit W st n).1.isAdmitted = false →
        (imStep limit W st n).2 = st.filter (fun t => decide (n - (W : ℚ) < t)))
    ∧ (calls.Pairwise (fun a b => a ≠ b) →
        admTrace (redisTrace limit W [] calls)
          = admTrace (imTrace limit W [] calls)
        ∧ WindowBound limit W (admittedTimes (redisTrace limit W [] calls))) := by
  have hspec := imTrace_spec_nil limit W calls hW hmono
  have hsorted : ((imTrace limit W [] calls).map Prod.fst).Pairwise (· ≤ ·) := by
    rw [imTrace_map_fst]
    exact hmono
  refine ⟨hspec, windowBound_of_spec limit W _ hsorted hspec, ?_, ?_⟩
  · intro st n hrej
    simp only [imStep] at hrej ⊢
    by_cases hlim :
        limit ≤ (st.filter (fun t => decide (n - (W : ℚ) < t))).length
    · rw [if_pos hlim]
    · rw [if_neg hlim] at hrej
      simp [CheckResult.isAdmitted] at hrej
  · intro hdist
    have heq := redisTrace_admEq limit W calls []
      (fun x hx => absurd hx (List.not_mem_nil x)) hdist
    refine ⟨heq, ?_⟩
    rw [admittedTimes_eq_of_admTrace _ _ heq]
    exact windowBound_of_spec limit W _ hsorted hspec

/-- Witness for C1 (amended) on the calls 0, 10, 20 with limit 2 and a
60-second window. -/
theorem rate_limit_sliding_window_amended_witness :
    ((0 : ℤ) < 60 ∧ ([0, 10, 20] : List ℚ).Pairwise (· ≤ ·))
    ∧ (SlidingSpec 2 60 (imTrace 2 60 [] [0, 10, 20])
      ∧ WindowBound 2 60 (admittedTimes (imTrace 2 60 [] [0, 10, 20]))
      ∧ (∀ st n, (imStep 2 60 st n).1.isAdmitted = false →
          (imStep 2 60 st n).2 = st.filter (fun t => decide (n - ((60 : ℤ) : ℚ) < t)))
      ∧ (([0, 10, 20] : List ℚ).Pairwise (fun a b => a ≠ b) →
          admTrace (redisTrace 2 60 [] [0, 10, 20])
            = admTrace (imTrace 2 60 [] [0, 10, 20])
          ∧ WindowBound 2 60 (admittedTimes (redisTrace 2 60 [] [0, 10, 20])))) :=
  ⟨⟨by decide, by norm_num [List.pairwise_cons]⟩,
   rate_limit_sliding_window_amended 2 60 [0, 10, 20] (by decide)
     (by norm_num [List.pairwise_cons])⟩

/- ── Theorems: retry-after computation (C4) ─────────────────────────── -/

/-- Claim C4 counterexample: on the Redis backend, a call at time 30
rejected against the single admitted timestamp 0 in a 60-second window
reports `retry_after_seconds = 60` (the full window), not the claimed
`int(60 - (30 - 0)) + 1 = 31` seconds until the oldest entry leaves the
window. -/
theorem redis_retry_after_counterexample :
    redisTrace 1 60 [] [0, 30] = [(0, .admitted), (30, .rateLimited 60)]
    ∧ pyInt ((60 : ℚ) - (30 - 0)) + 1 = 31
    ∧ (60 : ℤ) ≠ 31 := by
  refine ⟨?_, ?_, by decide⟩
  · norm_num [redisTrace, redisStepOk, redisStep, imStep, List.filter]
    decide
  · norm_num [pyInt]

/-- Claim C4 (corrected, amended): on the in-memory backend every
rejection reports `retry_after_seconds = int(windowSeconds − (now −
oldest)) + 1`, where `oldest` is the oldest previously admitted timestamp
lying in the current window (the head of the window list, which is its
minimum for a monotone clock); the Redis backend instead always reports
the full `windowSeconds`. -/
theorem retry_after_amended (limit : ℕ) (W : ℤ) (calls : List ℚ)
    (hW : 0 < W) (hpos : 0 < limit) (hmono : calls.Pairwise (· ≤ ·)) :
    (∀ pre t r post,
        imTrace limit W [] calls = pre ++ (t, .rateLimited r) :: post →
        r = pyInt ((W : ℚ)
              - (t - ((admittedTimes pre).filter (inWindow W t)).headD 0)) + 1
        ∧ (admittedTimes pre).filter (inWindow W t) ≠ []
        ∧ ∀ s ∈ (admittedTimes pre).filter (inWindow W t),
            ((admittedTimes pre).filter (inWindow W t)).headD 0 ≤ s)
    ∧ (∀ st n r, (redisStepOk limit W st n).1 = .rateLimited r → r = W) := by
  constructor
  · intro pre t r post hdec
    have hspec := imTrace_spec_nil limit W calls hW hmono
    have hv := hspec pre t (.rateLimited r) post hdec
    rw [stepVerdict.eq_def] at hv
    simp only [List.nil_append] at hv
    by_cases hlen : limit ≤ ((admittedTimes pre).filter (inWindow W t)).length
    · rw [if_pos hlen] at hv
      have hq : r = pyInt ((W : ℚ)
          - (t - ((admittedTimes pre).filter (inWindow W t)).headD 0)) + 1 := by
        injection hv
      refine ⟨hq, ?_, ?_⟩
      · exact List.ne_nil_of_length_pos (lt_of_lt_of_le hpos hlen)
      · have hcalls : calls
            = pre.map Prod.fst ++ (t, CheckResult.rateLimited r).fst
                :: post.map Prod.fst := by
          rw [← List.map_cons, ← List.map_append, ← hdec, imTrace_map_fst]
        have hpwpre : (pre.map Prod.fst).Pairwise (· ≤ ·) := by
          rw [hcalls] at hmono
          exact (List.pairwise_append.mp hmono).1
        have hadmsorted : (admittedTimes pre).Pairwise (· ≤ ·) :=
          List.Pairwise.sublist (admittedTimes_sublist pre) hpwpre
        have hwinsorted :
            ((admittedTimes pre).filter (inWindow W t)).Pairwise (· ≤ ·) :=
          List.Pairwise.sublist (List.filter_sublist _) hadmsorted
        exact headD_le_of_sorted _ 0 hwinsorted
    · rw [if_neg hlen] at hv
      exact absurd hv (by simp)
  · intro st n r h
    simp only [redisStepOk, redisStep] at h
    by_cases hlim :
        limit ≤ (st.filter (fun t => decide (n - (W : ℚ) < t))).length
    · rw [if_pos hlim,
        if_neg (show ¬ (RedisOutcome.ok = RedisOutcome.zremFails) by decide)] at h
      simp only [CheckResult.rateLimited.injEq] at h
      exact h.symm
    · rw [if_neg hlim] at h
      exact absurd h (by simp)

/-- Witness for C4 (amended) on the calls 0, 30 with limit 1 and a
60-second window. -/
theorem retry_after_amended_witness :
    ((0 : ℤ) < 60 ∧ 0 < 1 ∧ ([0, 30] : List ℚ).Pairwise (· ≤ ·))
    ∧ ((∀ pre t r post,
          imTrace 1 60 [] [0, 30] = pre ++ (t, .rateLimited r) :: post →
          r = pyInt ((60 : ℤ) - (t - ((admittedTimes pre).filter (inWindow 60 t)).headD 0)) + 1
          ∧ (admittedTimes pre).filter (inWindow 60 t) ≠ []
          ∧ ∀ s ∈ (admittedTimes pre).filter (inWindow 60 t),
              ((admittedTimes pre).filter (inWindow 60 t)).headD 0 ≤ s)
      ∧ (∀ st n r, (redisStepOk 1 60 st n).1 = .rateLimited r → r = 60)) :=
  ⟨⟨by decide, by decide, by norm_num [List.pairwise_cons]⟩,
   retry_after_amended 1 60 [0, 30] (by decide) (by decide)
     (by norm_num [List.pairwise_cons])⟩

/- ── Theorems: cost guard ───────────────────────────────────────────── -/

/-- Claim C2 (confirmed): `enforce_kill_switch` raises `ServiceSuspended`
with a payload carrying the (rounded) daily total and the threshold iff
the possibly cached total returned by `get_today_total_cost` is at or
above `MAX_DAILY_COST_USD`; whenever that total is strictly below the
threshold, the call returns ok. -/
theorem kill_switch_threshold_iff (c : CostCache) (now : ℚ) (today : ℤ)
    (dbRows : Option (List ℚ)) (thr : ℚ) :
    ((enforce_kill_switch c now today dbRows thr).1
        = .error ⟨round4 (get_today_total_cost c now today dbRows).1, thr⟩
      ↔ thr ≤ (get_today_total_cost c now today dbRows).1)
    ∧ ((get_today_total_cost c now today dbRows).1 < thr →
        (enforce_kill_switch c now today dbRows thr).1 = .ok ()) := by
  simp only [enforce_kill_switch]
  split_ifs with h
  · exact ⟨⟨fun _ => h, fun _ => rfl⟩, fun hlt => absurd h (not_le.mpr hlt)⟩
  · refine ⟨⟨fun he => absurd he (by simp), fun hle => absurd hle h⟩, fun _ => rfl⟩

/-- Witness for C2 at a concrete input: a cached total of 12 against a
threshold of 10 trips the switch, and one of 12 against 20 passes. -/
theorem kill_switch_threshold_iff_witness :
    ((enforce_kill_switch ⟨12, 100, some 3⟩ 110 3 none 10).1
        = .error ⟨round4 (get_today_total_cost ⟨12, 100, some 3⟩ 110 3 none).1, 10⟩
      ↔ (10 : ℚ) ≤ (get_today_total_cost ⟨12, 100, some 3⟩ 110 3 none).1)
    ∧ ((get_today_total_cost ⟨12, 100, some 3⟩ 110 3 none).1 < 10 →
        (enforce_kill_switch ⟨12, 100, some 3⟩ 110 3 none 10).1 = .ok ()) :=
  kill_switch_threshold_iff ⟨12, 100, some 3⟩ 110 3 none 10

/-- Claim C3 counterexample: with the stale initial cache
`{"value": 0.0, "fetched_at": 0.0, "date": None}`, `record_cost 5`
followed by `get_today_total_cost` queries the durable store and returns
the durable sum 7, not the prior cached value plus 5. -/
theorem record_cost_stale_refresh_counterexample :
    (get_today_total_cost (record_cost ⟨0, 0, none⟩ 5) 100 0 (some [7])).1 = 7
    ∧ (get_today_total_cost (record_cost ⟨0, 0, none⟩ 5) 100 0 (some [7])).2.2 = true
    ∧ (get_today_total_cost (record_cost ⟨0, 0, none⟩ 5) 100 0 (some [7])).1
        ≠ (0 : ℚ) + 5 := by
  norm_num [get_today_total_cost, record_cost, CACHE_TTL_SECS]

/-- Claim C3 (corrected, amended): provided the cached snapshot is fresh
— the cached date equals today and less than `_CACHE_TTL_SECS` seconds
have passed since the last fetch — `record_cost x` followed by
`get_today_total_cost` returns the prior cached value plus `x`, performs
no durable-store query, and leaves the bumped cache in place.  (On a
stale cache the call instead refreshes from the durable store.) -/
theorem record_cost_then_get_fresh (c : CostCache) (x now : ℚ) (today : ℤ)
    (dbRows : Option (List ℚ))
    (hdate : c.date = some today)
    (hfresh : now - c.fetchedAt < CACHE_TTL_SECS) :
    get_today_total_cost (record_cost c x) now today dbRows
      = (c.value + x, record_cost c x, false) := by
  simp [get_today_total_cost, record_cost, hdate, hfresh]

/-- Witness for C3 (amended) at a concrete fresh cache. -/
theorem record_cost_then_get_fresh_witness :
    ((⟨3, 50, some 7⟩ : CostCache).date = some 7
      ∧ (55 : ℚ) - (⟨3, 50, some 7⟩ : CostCache).fetchedAt < CACHE_TTL_SECS)
    ∧ get_today_total_cost (record_cost ⟨3, 50, some 7⟩ 2) 55 7 (some [100])
        = ((3 : ℚ) + 2, record_cost ⟨3, 50, some 7⟩ 2, false) :=
  ⟨⟨rfl, by norm_num [CACHE_TTL_SECS]⟩,
   record_cost_then_get_fresh ⟨3, 50, some 7⟩ 2 55 7 (some [100]) rfl
     (by norm_num [CACHE_TTL_SECS])⟩

/-- Claim C10 (confirmed): when the freshness test fails (cached date
differs from today, or at least 60 seconds have passed since the last
fetch) and the durable query succeeds, the cached total is overwritten
with the durable sum for the day: amounts previously added through
`record_cost` and absent from the durable aggregate are discarded from
the cached view. -/
theorem cost_refresh_overwrites_cache (c : CostCache) (x now : ℚ) (today : ℤ)
    (rows : List ℚ)
    (hstale : ¬ (c.date = some today ∧ now - c.fetchedAt < CACHE_TTL_SECS)) :
    get_today_total_cost (record_cost c x) now today (some rows)
      = (rows.sum, ⟨rows.sum, now, some today⟩, true) := by
  have h2 : ¬ ((record_cost c x).date = some today
      ∧ now - (record_cost c x).fetchedAt < CACHE_TTL_SECS) := hstale
  simp only [get_today_total_cost, if_neg h2]

/-- Witness for C10 at a concrete stale cache: the bump of 2 over the
cached 3 is discarded in favour of the durable sum 1 + 2 = 3. -/
theorem cost_refresh_overwrites_cache_witness :
    (¬ ((⟨3, 0, none⟩ : CostCache).date = some 0
        ∧ (100 : ℚ) - (⟨3, 0, none⟩ : CostCache).fetchedAt < CACHE_TTL_SECS))
    ∧ get_today_total_cost (record_cost ⟨3, 0, none⟩ 2) 100 0 (some [1, 2])
        = (([1, 2] : List ℚ).sum, ⟨([1, 2] : List ℚ).sum, 100, some 0⟩, true) :=
  ⟨by simp, cost_refresh_overwrites_cache ⟨3, 0, none⟩ 2 100 0 [1, 2] (by simp)⟩

/- ── Theorems: usage quota ──────────────────────────────────────────── -/

/-- Claim C6 (confirmed): whenever the monthly conversation total is at
or above the conversation limit, `check_usage_limits` fails with
`limit_type = "conversations"` regardless of the token total
(conversations are evaluated first and the first exceeded dimension is
returned); and a failing durable read returns ok (fail open). -/
theorem usage_quota_conversations_first (convLimit tokLimit : ℕ) (plan : String)
    (rows : List (ℕ × ℕ))
    (hconv : convLimit ≤ (rows.map (fun r => r.1)).sum) :
    check_usage_limits convLimit tokLimit plan (some rows)
      = .error ⟨"conversations", (rows.map (fun r => r.1)).sum, convLimit, plan⟩
    ∧ ∀ cl tl : ℕ, ∀ pl : String, check_usage_limits cl tl pl none = .ok () := by
  refine ⟨?_, fun _ _ _ => rfl⟩
  simp [check_usage_limits, hconv]

/-- Witness for C6: three conversations against a limit of 2, with the
token total of 5 far below its limit of 1000000. -/
theorem usage_quota_conversations_first_witness :
    2 ≤ (([(1, 0), (2, 5)] : List (ℕ × ℕ)).map (fun r => r.1)).sum
    ∧ (check_usage_limits 2 1000000 "free_beta" (some [(1, 0), (2, 5)])
        = .error ⟨"conversations", (([(1, 0), (2, 5)] : List (ℕ × ℕ)).map (fun r => r.1)).sum, 2, "free_beta"⟩
      ∧ ∀ cl tl : ℕ, ∀ pl : String, check_usage_limits cl tl pl none = .ok ()) :=
  ⟨by decide, usage_quota_conversations_first 2 1000000 "free_beta" [(1, 0), (2, 5)] (by decide)⟩

/- ── Theorems: rate limiter fail-open (C5) ──────────────────────────── -/

/-- Claim C5 (confirmed): whenever a store operation inside the Redis
check fails — the pipelined prune/count/add/expire round trip, or the
compensating `zrem` on the rejection path — the call returns admitted
instead of raising, and logs exactly one warning. -/
theorem redis_fail_open_logs_once (limit : ℕ) (W : ℤ) (st : List ℚ) (now : ℚ)
    (outc : RedisOutcome)
    (h : outc = .pipelineFails
       ∨ (outc = .zremFails
           ∧ limit ≤ (st.filter (fun t => decide (now - (W : ℚ) < t))).length)) :
    (redisStep limit W st now outc).1 = .admitted
    ∧ (redisStep limit W st now outc).2.2 = 1 := by
  rcases h with h | ⟨h, hfull⟩
  · subst h; exact ⟨rfl, rfl⟩
  · subst h
    simp [redisStep, hfull]

/-- Witness for C5: one timestamp inside the window, limit 1, and the
`zrem` round trip failing. -/
theorem redis_fail_open_logs_once_witness :
    (RedisOutcome.zremFails = RedisOutcome.pipelineFails
      ∨ (RedisOutcome.zremFails = RedisOutcome.zremFails
          ∧ 1 ≤ (([0] : List ℚ).filter (fun t => decide ((30 : ℚ) - ((60 : ℤ) : ℚ) < t))).length))
    ∧ (redisStep 1 60 [0] 30 .zremFails).1 = .admitted
    ∧ (redisStep 1 60 [0] 30 .zremFails).2.2 = 1 :=
  ⟨Or.inr ⟨rfl, by norm_num [List.filter]⟩,
   redis_fail_open_logs_once 1 60 [0] 30 .zremFails
     (Or.inr ⟨rfl, by norm_num [List.filter]⟩)⟩

/- ── Helper lemmas: question normalization (C7) ─────────────────────── -/

theorem isPyWs_lowerChar (c : Char) : isPyWs (lowerChar c) = isPyWs c := by
  unfold lowerChar
  by_cases h0 : c = 'A'
  · rw [if_pos h0, h0]; decide
  · rw [if_neg h0]
    by_cases h1 : c = 'B'
    · rw [if_pos h1, h1]; decide
    · rw [if_neg h1]
      by_cases h2 : c = 'C'
      · rw [if_pos h2, h2]; decide
      · rw [if_neg h2]
        by_cases h3 : c = 'D'
        · rw [if_pos h3, h3]; decide
        · rw [if_neg h3]
          by_cases h4 : c = 'E'
          · rw [if_pos h4, h4]; decide
          · rw [if_neg h4]
            by_cases h5 : c = 'F'
            · rw [if_pos h5, h5]; decide
            · rw [if_neg h5]
              by_cases h6 : c = 'G'
              · rw [if_pos h6, h6]; decide
              · rw [if_neg h6]
                by_cases h7 : c = 'H'
                · rw [if_pos h7, h7]; decide
                · rw [if_neg h7]
                  by_cases h8 : c = 'I'
                  · rw [if_pos h8, h8]; decide
                  · rw [if_neg h8]
                    by_cases h9 : c = 'J'
                    · rw [if_pos h9, h9]; decide
                    · rw [if_neg h9]
                      by_cases h10 : c = 'K'
                      · rw [if_pos h10, h10]; decide
                      · rw [if_neg h10]
                        by_cases h11 : c = 'L'
                        · rw [if_pos h11, h11]; decide
                        · rw [if_neg h11]
                          by_cases h12 : c = 'M'
                          · rw [if_pos h12, h12]; decide
                          · rw [if_neg h12]
                            by_cases h13 : c = 'N'
                            · rw [if_pos h13, h13]; decide
                            · rw [if_neg h13]
                              by_cases h14 : c = 'O'
                              · rw [if_pos h14, h14]; decide
                              · rw [if_neg h14]
                                by_cases h15 : c = 'P'
                                · rw [if_pos h15, h15]; decide
                                · rw [if_neg h15]
                                  by_cases h16 : c = 'Q'
                                  · rw [if_pos h16, h16]; decide
                                  · rw [if_neg h16]
                                    by_cases h17 : c = 'R'
                                    · rw [if_pos h17, h17]; decide
                                    · rw [if_neg h17]
                                      by_cases h18 : c = 'S'
                                      · rw [if_pos h18, h18]; decide
                                      · rw [if_neg h18]
                                        by_cases h19 : c = 'T'
                                        · rw [if_pos h19, h19]; decide
                                        · rw [if_neg h19]
                                          by_cases h20 : c = 'U'
                                          · rw [if_pos h20, h20]; decide
                                          · rw [if_neg h20]
                                            by_cases h21 : c = 'V'
                                            · rw [if_pos h21, h21]; decide
                                            · rw [if_neg h21]
                                              by_cases h22 : c = 'W'
                                              · rw [if_pos h22, h22]; decide
                                              · rw [if_neg h22]
                                                by_cases h23 : c = 'X'
                                                · rw [if_pos h23, h23]; decide
                                                · rw [if_neg h23]
                                                  by_cases h24 : c = 'Y'
                                                  · rw [if_pos h24, h24]; decide
                                                  · rw [if_neg h24]
                                                    by_cases h25 : c = 'Z'
                                                    · rw [if_pos h25, h25]; decide
                                                    · rw [if_neg h25]

theorem wordsAux_lower (l : List Char) :
    ∀ acc : List Char,
      wordsAux (l.map lowerChar) (acc.map lowerChar)
        = (wordsAux l acc).map (List.map lowerChar) := by
  induction l with
  | nil =>
      intro acc
      cases acc with
      | nil => rfl
      | cons a as => simp [wordsAux, List.map_reverse]
  | cons c rest ih =>
      intro acc
      simp only [List.map_cons, wordsAux, isPyWs_lowerChar]
      cases hws : isPyWs c with
      | true =>
          simp only [if_pos rfl]
          cases acc with
          | nil => simpa using ih []
          | cons a as =>
              simp only [List.map_cons, List.isEmpty_cons, if_neg Bool.false_ne_true]
              have := ih []
              simp only [List.map_nil] at this
              simp [this, List.map_reverse]
      | false =>
          simp only [Bool.false_eq_true, if_neg Bool.false_ne_true]
          have := ih (c :: acc)
          simpa using this

theorem wordsAux_allWs (ws2 : List Char) :
    ∀ acc : List Char, (∀ c ∈ ws2, isPyWs c = true) →
      wordsAux ws2 acc = if acc.isEmpty then [] else [acc.reverse] := by
  induction ws2 with
  | nil => intro acc _; rfl
  | cons w ws ih =>
      intro acc hws
      have hw : isPyWs w = true := hws w (List.mem_cons_self _ _)
      have ihe := ih [] (fun c hc => hws c (List.mem_cons_of_mem _ hc))
      simp only [wordsAux, hw, if_pos rfl, ihe]
      cases acc with
      | nil => rfl
      | cons a as => simp

theorem wordsAux_append_ws (l : List Char) :
    ∀ (ws2 acc : List Char), (∀ c ∈ ws2, isPyWs c = true) →
      wordsAux (l ++ ws2) acc = wordsAux l acc := by
  induction l with
  | nil =>
      intro ws2 acc hws
      rw [List.nil_append, wordsAux_allWs ws2 acc hws]
      cases acc with
      | nil => rfl
      | cons a as => rfl
  | cons c rest ih =>
      intro ws2 acc hws
      simp only [List.cons_append, wordsAux]
      cases hws2 : isPyWs c with
      | true => simp [ih ws2 [] hws, ih ws2 acc.reverse hws]
      | false => simp [ih ws2 (c :: acc) hws]

theorem wordsAux_dropWhile (l : List Char) :
    wordsAux (l.dropWhile isPyWs) [] = wordsAux l [] := by
  induction l with
  | nil => rfl
  | cons c rest ih =>
      cases hws : isPyWs c with
      | true => simp [List.dropWhile_cons, hws, wordsAux, ih]
      | false => simp [List.dropWhile_cons, hws]

theorem pyWords_strip (l : List Char) : pyWords (pyStrip l) = pyWords l := by
  unfold pyWords pyStrip
  have hsplit : l.dropWhile isPyWs
      = ((l.dropWhile isPyWs).reverse.dropWhile isPyWs).reverse
        ++ ((l.dropWhile isPyWs).reverse.takeWhile isPyWs).reverse := by
    rw [← List.reverse_append, List.takeWhile_append_dropWhile,
      List.reverse_reverse]
  rw [← wordsAux_dropWhile l]
  conv =>
    rhs
    rw [hsplit]
  rw [wordsAux_append_ws _ _ []
    (fun c hc => List.mem_takeWhile_imp (List.mem_reverse.mp hc))]

theorem pyWords_lower (l : List Char) :
    pyWords (pyLower l) = (pyWords l).map (List.map lowerChar) := by
  unfold pyWords pyLower
  simpa using wordsAux_lower l []

theorem normalize_eq_of_equiv (s1 s2 : String) (h : CaseWsEquiv s1 s2) :
    normalizeQuestion s1 = normalizeQuestion s2 := by
  unfold normalizeQuestion
  rw [pyWords_strip, pyWords_strip, pyWords_lower, pyWords_lower, h]

theorem hash_eq_of_equiv (s1 s2 : String) (h : CaseWsEquiv s1 s2) :
    hash_question s1 = hash_question s2 := by
  unfold hash_question
  rw [normalize_eq_of_equiv s1 s2 h]

/- ── Theorems: answer cache roundtrip and TTL (C7) ──────────────────── -/

/-- Claim C7 (confirmed): for two question texts that differ only in
letter case and surrounding or repeated whitespace, normalization maps
both to the same `question_hash`; storing under the first text and
looking up under the second (against a table with no prior row for the
key) returns the stored answer while the TTL has not elapsed, and after
the TTL elapses the lookup returns none although the row still exists in
the table and the table is left unchanged. -/
theorem answer_cache_roundtrip (db0 : List FaqRow)
    (owner q1 q2 ans model : String) (t0 t1 ttlHours : ℚ)
    (heq : CaseWsEquiv q1 q2)
    (hkey : ∀ r ∈ db0, ¬ (r.ownerId = owner ∧ r.questionHash = hash_question q1)) :
    hash_question q1 = hash_question q2
    ∧ (t1 < t0 + ttlHours * 3600 →
        (get_cached_answer (store_cached_answer db0 owner q1 ans model t0 ttlHours)
          owner q2 t1 false).1 = some ans)
    ∧ (t0 + ttlHours * 3600 ≤ t1 →
        (get_cached_answer (store_cached_answer db0 owner q1 ans model t0 ttlHours)
          owner q2 t1 false).1 = none
        ∧ (get_cached_answer (store_cached_answer db0 owner q1 ans model t0 ttlHours)
            owner q2 t1 false).2
            = store_cached_answer db0 owner q1 ans model t0 ttlHours
        ∧ ∃ r ∈ store_cached_answer db0 owner q1 ans model t0 ttlHours,
            r.ownerId = owner ∧ r.questionHash = hash_question q2
              ∧ r.answerText = ans) := by
  have hh := hash_eq_of_equiv q1 q2 heq
  have hany : db0.any (fun r =>
      decide (r.ownerId = owner ∧ r.questionHash = hash_question q1)) = false := by
    rw [List.any_eq_false]
    intro r hr
    simpa using hkey r hr
  have hstore : store_cached_answer db0 owner q1 ans model t0 ttlHours
      = db0 ++ [⟨owner, hash_question q1, q1.take 500, ans, model, 1,
          t0 + ttlHours * 3600⟩] := by
    simp only [store_cached_answer]
    rw [hany]
    simp
  have hfilter0 : db0.filter (fun r =>
      decide (r.ownerId = owner ∧ r.questionHash = hash_question q2
        ∧ t1 < r.expiresAt)) = [] := by
    rw [List.filter_eq_nil_iff]
    intro r hr
    have hk := hkey r hr
    rw [hh] at hk
    simp only [decide_eq_true_eq]
    rintro ⟨h1, h2, -⟩
    exact hk ⟨h1, h2⟩
  refine ⟨hh, ?_, ?_⟩
  · intro hlt
    rw [hstore]
    simp only [get_cached_answer]
    rw [List.filter_append, hfilter0, List.nil_append]
    have hrow : ([(⟨owner, hash_question q1, q1.take 500, ans, model, 1,
        t0 + ttlHours * 3600⟩ : FaqRow)].filter (fun r =>
          decide (r.ownerId = owner ∧ r.questionHash = hash_question q2
            ∧ t1 < r.expiresAt)))
        = [⟨owner, hash_question q1, q1.take 500, ans, model, 1,
            t0 + ttlHours * 3600⟩] := by
      simp [hh, hlt]
    rw [hrow]
    rfl
  · intro hle
    have hrow : ([(⟨owner, hash_question q1, q1.take 500, ans, model, 1,
        t0 + ttlHours * 3600⟩ : FaqRow)].filter (fun r =>
          decide (r.ownerId = owner ∧ r.questionHash = hash_question q2
            ∧ t1 < r.expiresAt))) = [] := by
      simp [not_lt.mpr hle]
    refine ⟨?_, ?_, ?_⟩
    · rw [hstore]
      simp only [get_cached_answer]
      rw [List.filter_append, hfilter0, List.nil_append, hrow]
      rfl
    · rw [hstore]
      simp only [get_cached_answer]
      rw [List.filter_append, hfilter0, List.nil_append, hrow]
      rfl
    · refine ⟨⟨owner, hash_question q1, q1.take 500, ans, model, 1,
        t0 + ttlHours * 3600⟩, ?_, rfl, hh, rfl⟩
      rw [hstore]
      exact List.mem_append_right _ (List.mem_singleton.mpr rfl)

/-- Witness for C7: the texts differ only in case and whitespace; stored
at time 0 with a 1-hour TTL, the lookup at time 10 hits and the lookup at
time 3600 misses while the row remains. -/
theorem answer_cache_roundtrip_witness :
    (CaseWsEquiv "What IS  this?" " what is this? "
      ∧ ∀ r ∈ ([] : List FaqRow),
          ¬ (r.ownerId = "o" ∧ r.questionHash = hash_question "What IS  this?"))
    ∧ (get_cached_answer (store_cached_answer [] "o" "What IS  this?" "a" "m" 0 1)
        "o" " what is this? " 10 false).1 = some "a"
    ∧ (get_cached_answer (store_cached_answer [] "o" "What IS  this?" "a" "m" 0 1)
        "o" " what is this? " 3600 false).1 = none :=
  ⟨⟨by show _ = _; decide, by simp⟩,
   (answer_cache_roundtrip [] "o" "What IS  this?" " what is this? " "a" "m" 0 10 1
     (by show _ = _; decide) (by simp)).2.1 (by norm_num),
   ((answer_cache_roundtrip [] "o" "What IS  this?" " what is this? " "a" "m" 0 3600 1
     (by show _ = _; decide) (by simp)).2.2 (by norm_num)).1⟩

/- ── Theorems: answer cache hit-count bump (C8) ─────────────────────── -/

/-- Claim C8 (code_bug): at the failing input — a valid, unexpired cache
row whose hit-count increment fails — the lookup returns `none` (a miss),
although the same lookup with a healthy increment returns the stored
answer.  The increment executes inside the `try` block before the
`return row["answer_text"]` line, so its exception is caught by the
`except` clause and turns the read into a miss, contradicting the
best-effort "fire-and-forget" intent documented in the code. -/
theorem cache_hit_increment_failure_turns_miss :
    (get_cached_answer [⟨"o", hash_question "q", "q", "a", "m", 1, 100⟩]
        "o" "q" 10 false).1 = some "a"
    ∧ (get_cached_answer [⟨"o", hash_question "q", "q", "a", "m", 1, 100⟩]
        "o" "q" 10 true).1 = none := by
  constructor <;> norm_num [get_cached_answer, List.filter]

/- ── Theorems: demo pipeline ordering (C9) ──────────────────────────── -/

/-- Claim C9 counterexample: a demo request whose per-IP daily cap is
already exhausted (20 messages today against a cap of 20) is rejected
with `daily_limit` — yet the rate limiter has already run and recorded
the timestamp 100 for the IP key, because `demo_chat` invokes
`rate_limiter.check` (step 2) before `_get_or_create_session` (step 3),
contradicting the claim that the caps are enforced before rate limiting. -/
theorem demo_caps_order_counterexample :
    (demo_chat_gate ⟨⟨0, 100, some 0⟩, fun _ => [], [⟨"s1", "1.2.3.4", 50, 20⟩]⟩
        "1.2.3.4" none 100 0 0 (some []) 100 5 20 10 "tok").1 = .dailyLimit
    ∧ (demo_chat_gate ⟨⟨0, 100, some 0⟩, fun _ => [], [⟨"s1", "1.2.3.4", 50, 20⟩]⟩
        "1.2.3.4" none 100 0 0 (some []) 100 5 20 10 "tok").2.limiter "ip:1.2.3.4"
      = [100] := by
  constructor <;>
    norm_num [demo_chat_gate, enforce_kill_switch, get_today_total_cost,
      CACHE_TTL_SECS, imCheck, imStep, get_or_create_session, List.filter] <;>
    decide

/-- Claim C9 (corrected, amended): the caps run after the rate limiter.
Whenever the per-IP daily cap or the per-session message cap rejects a
demo request, the kill switch has passed, the rate limiter has already
admitted the call, and the current timestamp has been recorded against
the IP key in the limiter window. -/
theorem demo_caps_after_rate_limit (st : DemoState) (ip : String)
    (tok : Option String) (now : ℚ) (today : ℤ) (todayStart : ℚ)
    (costRows : Option (List ℚ)) (thr : ℚ) (prm pip psess : ℕ) (ntok : String)
    (hcap : (demo_chat_gate st ip tok now today todayStart costRows thr
                prm pip psess ntok).1 = .dailyLimit
          ∨ (demo_chat_gate st ip tok now today todayStart costRows thr
                prm pip psess ntok).1 = .sessionLimit) :
    (demo_chat_gate st ip tok now today todayStart costRows thr
        prm pip psess ntok).2.limiter ("ip:" ++ ip)
      = (st.limiter ("ip:" ++ ip)).filter
          (fun t => decide (now - ((60 : ℤ) : ℚ) < t)) ++ [now] := by
  simp only [demo_chat_gate] at hcap ⊢
  cases hks : (enforce_kill_switch st.cost now today costRows thr).1 with
  | error p =>
      rw [hks] at hcap
      simp at hcap
  | ok u =>
      cases hrl : (imCheck st.limiter ("ip:" ++ ip) prm 60 now).1 with
      | rateLimited r =>
          rw [hks, hrl] at hcap
          simp at hcap
      | admitted =>
          have hstep1 : (imStep prm 60 (st.limiter ("ip:" ++ ip)) now).1
              = .admitted := hrl
          have hlim : ¬ (prm ≤ ((st.limiter ("ip:" ++ ip)).filter
              (fun t => decide (now - ((60 : ℤ) : ℚ) < t))).length) := by
            intro hge
            rw [imStep.eq_def] at hstep1
            simp only [if_pos hge] at hstep1
            exact absurd hstep1 (by simp)
          have hstate : (imCheck st.limiter ("ip:" ++ ip) prm 60 now).2
              ("ip:" ++ ip)
              = (st.limiter ("ip:" ++ ip)).filter
                  (fun t => decide (now - ((60 : ℤ) : ℚ) < t)) ++ [now] := by
            simp only [imCheck, if_pos rfl]
            rw [imStep.eq_def]
            simp only [if_neg hlim]
            simp
          rcases hsess : (get_or_create_session st.sessions ip tok pip psess
              todayStart now ntok).1 with rej | tok2
          · cases rej with
            | dailyLimit => exact hstate
            | sessionLimit => exact hstate
          · rw [hks, hrl, hsess] at hcap
            simp at hcap

/-- Witness for C9 (amended): the per-session cap rejects (session "s2"
already at 10 messages against a cap of 10) after the limiter recorded
timestamp 100 for the IP key. -/
theorem demo_caps_after_rate_limit_witness :
    ((demo_chat_gate ⟨⟨0, 100, some 0⟩, fun _ => [], [⟨"s2", "9.9.9.9", 50, 10⟩]⟩
        "9.9.9.9" (some "s2") 100 0 0 (some []) 100 5 20 10 "tok").1 = .dailyLimit
      ∨ (demo_chat_gate ⟨⟨0, 100, some 0⟩, fun _ => [], [⟨"s2", "9.9.9.9", 50, 10⟩]⟩
        "9.9.9.9" (some "s2") 100 0 0 (some []) 100 5 20 10 "tok").1 = .sessionLimit)
    ∧ (demo_chat_gate ⟨⟨0, 100, some 0⟩, fun _ => [], [⟨"s2", "9.9.9.9", 50, 10⟩]⟩
        "9.9.9.9" (some "s2") 100 0 0 (some []) 100 5 20 10 "tok").2.limiter
        ("ip:" ++ "9.9.9.9")
      = ((fun _ => ([] : List ℚ)) ("ip:" ++ "9.9.9.9")).filter
          (fun t => decide ((100 : ℚ) - ((60 : ℤ) : ℚ) < t)) ++ [100] :=
  ⟨Or.inr (by
      norm_num [demo_chat_gate, enforce_kill_switch, get_today_total_cost,
        CACHE_TTL_SECS, imCheck, imStep, get_or_create_session, List.filter]),
   demo_caps_after_rate_limit ⟨⟨0, 100, some 0⟩, fun _ => [], [⟨"s2", "9.9.9.9", 50, 10⟩]⟩
     "9.9.9.9" (some "s2") 100 0 0 (some []) 100 5 20 10 "tok"
     (Or.inr (by
        norm_num [demo_chat_gate, enforce_kill_switch, get_today_total_cost,
          CACHE_TTL_SECS, imCheck, imStep, get_or_create_session, List.filter]))⟩

end AiScale
